import Mathlib

/-!
Verification of the particle-filter object tracker (`tracking_object.ipynb`).

Shallow embedding conventions:
* Python/numpy floats are modelled as rationals (`ℚ`); the claims checked here
  are order and exact-equality facts that do not depend on rounding.
* `np.random.rand`, `np.random.choice` and `np.random.normal` draws are passed
  in as explicit oracle arguments; the contracts numpy guarantees for them
  (shape, index range, components in `[0,1)`) appear as hypotheses.
* A video frame is a total function `ℤ → ℤ → Colour` wrapped by `readPixel`,
  which returns `none` for any index outside `[0,WIDTH) × [0,HEIGHT)`
  (numpy raises for indices ≥ the extent; a negative index would wrap, which
  is never intended here, so it is likewise modelled as an invalid read).
* `np.random.choice(n, size, p)` validates `p` before sampling; the `.error`
  branch of `resample` models the `ValueError` it raises on an invalid
  distribution.  Over `ℚ`, division by zero yields `0`, so an all-zero weight
  vector gives probabilities summing to `0 ≠ 1` and hits that branch — this
  models numpy's NaN probabilities (`0.0/0.0`) being rejected by
  `np.random.choice`.
-/

namespace Tracking

/-- Frame height, from the configuration cell (`HEIGHT = 406`). -/
def HEIGHT : ℚ := 406

/-- Frame width, from the configuration cell (`WIDTH = 722`). -/
def WIDTH : ℚ := 722

/-- Number of particles (`NUM_PARTICLES = 5000`). -/
def NUM_PARTICLES : ℕ := 5000

/-- Initial velocity range (`VEL_RANGE = 0.5`). -/
def VEL_RANGE : ℚ := 1/2

/-- One particle: one row `(x, y, vx, vy)` of the `NUM_PARTICLES × 4` array. -/
@[ext]
structure Particle where
  x : ℚ
  y : ℚ
  vx : ℚ
  vy : ℚ
deriving DecidableEq

/-- A BGR pixel value, the three channels of `frame[y, x, :]` as integers
(numpy broadcasts the `uint8` pixel against the `int64` target colour). -/
structure Colour where
  c0 : ℤ
  c1 : ℤ
  c2 : ℤ
deriving DecidableEq

/-- Python `int()` applied to a rational: truncation toward zero. -/
def trunc (q : ℚ) : ℤ := if 0 ≤ q then ⌊q⌋ else ⌈q⌉

/-- Source `initialize_particles`: `np.random.rand(NUM_PARTICLES, 4)` scaled by
`(WIDTH, HEIGHT, VEL_RANGE, VEL_RANGE)`, then `VEL_RANGE/2` subtracted from the
two velocity columns.  `rand` is the oracle for the `np.random.rand` rows. -/
def initialize_particles (rand : List (ℚ × ℚ × ℚ × ℚ)) : List Particle :=
  rand.map (fun r =>
    { x := r.1 * WIDTH
      y := r.2.1 * HEIGHT
      vx := r.2.2.1 * VEL_RANGE - VEL_RANGE / 2
      vy := r.2.2.2 * VEL_RANGE - VEL_RANGE / 2 })

/-- Source `apply_velocity`: `x += vx`, `y += vy` on every row. -/
def apply_velocity (particles : List Particle) : List Particle :=
  particles.map (fun p => { p with x := p.x + p.vx, y := p.y + p.vy })

/-- Source `enforce_edges`: the loop over `range(NUM_PARTICLES)` sets
`particles[i,0] = max(0, min(WIDTH-1, particles[i,0]))` and likewise for `y`;
since the array has exactly `NUM_PARTICLES` rows this is a per-row map. -/
def enforce_edges (particles : List Particle) : List Particle :=
  particles.map (fun p =>
    { p with
      x := max 0 (min (WIDTH - 1) p.x)
      y := max 0 (min (HEIGHT - 1) p.y) })

/-- A frame pixel read `frame[y, x, :]`: valid only inside the
`WIDTH × HEIGHT` extent. -/
def readPixel (frame : ℤ → ℤ → Colour) (y x : ℤ) : Option Colour :=
  if 0 ≤ y ∧ (y : ℚ) < HEIGHT ∧ 0 ≤ x ∧ (x : ℚ) < WIDTH then
    some (frame y x)
  else
    none

/-- Target colour error of one pixel:
`np.sum((TARGET_COLOUR - pixel_colour)**2)` with `TARGET_COLOUR = (189,105,82)`. -/
def colourError (c : Colour) : ℚ :=
  (((189 - c.c0) ^ 2 + (105 - c.c1) ^ 2 + (82 - c.c2) ^ 2 : ℤ) : ℚ)

/-- Source `compute_errors`: per particle, truncate the position to integers, read the
frame pixel there, and store the squared colour distance.  Returns `none`
(numpy `IndexError` / wrapped read) if any read is out of bounds. -/
def compute_errors : List Particle → (ℤ → ℤ → Colour) → Option (List ℚ)
  | [], _ => some []
  | p :: rest, frame =>
    match readPixel frame (trunc p.y) (trunc p.x), compute_errors rest frame with
    | some c, some es => some (colourError c :: es)
    | _, _ => none

/-- Model of `np.max` on a list of rationals (the argument is never empty in the
pipeline; `0` is returned for `[]` only to make the function total). -/
def npMax : List ℚ → ℚ
  | [] => 0
  | [a] => a
  | a :: b :: rest => max a (npMax (b :: rest))

/-- Is this particle pinned to a frame edge?  The mask
`(particles[:,0]==0)|(particles[:,0]==WIDTH-1)|(particles[:,1]==0)|(particles[:,1]==HEIGHT-1)`. -/
def pinned (p : Particle) : Prop :=
  p.x = 0 ∨ p.x = WIDTH - 1 ∨ p.y = 0 ∨ p.y = HEIGHT - 1

instance : DecidablePred pinned := fun p => by
  unfold pinned; infer_instance

/-- Source `compute_weights`: `weights = np.max(errors) - errors`, then the entries at
edge-pinned particles are set to `0.0`, then `weights = weights**4`.
The source reads the edge mask off the global `particles` array (the same one
just scored), which is passed explicitly here. -/
def compute_weights (particles : List Particle) (errors : List ℚ) : List ℚ :=
  let weights := errors.map (fun e => npMax errors - e)
  let weights := (particles.zip weights).map
    (fun pw => if pinned pw.1 then (0 : ℚ) else pw.2)
  weights.map (fun w => w ^ 4)

/-- The default row used by `List.getD` in `resample`; never reached when the
resampling indices are in range. -/
def dummyParticle : Particle := ⟨0, 0, 0, 0⟩

/-- Source `resample`: normalise `weights / np.sum(weights)`, let `np.random.choice`
draw `NUM_PARTICLES` indices according to that distribution (`indices` is the
oracle for the draw), gather `particles[indices, :]`, and return the new
generation together with `(int(np.mean(x)), int(np.mean(y)))` over it.
`np.random.choice` validates its arguments: `p` must have `NUM_PARTICLES`
entries, be non-negative and sum to `1`; otherwise it raises `ValueError`
(the `.error` branch).  With `np.sum(weights) == 0` the source's division
produces an invalid distribution and lands in that branch — there is no guard
on the sum before the division. -/
def resample (particles : List Particle) (weights : List ℚ)
    (indices : List ℕ) : Except String (List Particle × ℤ × ℤ) :=
  let probabilities := weights.map (fun w => w / weights.sum)
  if probabilities.length = NUM_PARTICLES ∧ probabilities.sum = 1 ∧
      ∀ p ∈ probabilities, 0 ≤ p then
    let newParticles := indices.map (fun i => particles.getD i dummyParticle)
    let mx := (newParticles.map Particle.x).sum / (newParticles.length : ℚ)
    let my := (newParticles.map Particle.y).sum / (newParticles.length : ℚ)
    .ok (newParticles, trunc mx, trunc my)
  else
    .error "np.random.choice: invalid probability distribution"

/-- Position/velocity noise magnitudes of `apply_noise`. -/
def POS_SIGMA : ℚ := 1
def VEL_SIGMA : ℚ := 1/2

/-- Source `apply_noise`: add the Gaussian draws (oracle `noise`, one row per
particle) to the four state components. -/
def apply_noise (particles : List Particle)
    (noise : List (ℚ × ℚ × ℚ × ℚ)) : List Particle :=
  (particles.zip noise).map (fun pn =>
    { x := pn.1.x + pn.2.1
      y := pn.1.y + pn.2.2.1
      vx := pn.1.vx + pn.2.2.2.1
      vy := pn.1.vy + pn.2.2.2.2 })

/-- The estimate formula of §4.5: arithmetic mean of `x` and of `y` over a
generation, each truncated to an integer. -/
def meanPoint (particles : List Particle) : ℤ × ℤ :=
  (trunc ((particles.map Particle.x).sum / (particles.length : ℚ)),
   trunc ((particles.map Particle.y).sum / (particles.length : ℚ)))

/-! ## Helper lemmas -/

/-- Summing a list divided elementwise by a constant divides the sum. -/
lemma sum_map_div (l : List ℚ) (s : ℚ) :
    (l.map (fun w => w / s)).sum = l.sum / s := by
  induction l with
  | nil => simp
  | cons a t ih => simp [ih, add_div]

/-- Every member of a list is bounded by its `npMax`. -/
lemma le_npMax (l : List ℚ) : ∀ x ∈ l, x ≤ npMax l := by
  induction l with
  | nil => simp
  | cons a t ih =>
    intro x hx
    cases t with
    | nil =>
      rw [List.mem_singleton.mp hx]
      exact le_of_eq rfl
    | cons b u =>
      show x ≤ max a (npMax (b :: u))
      rcases List.mem_cons.mp hx with rfl | hx'
      · exact le_max_left _ _
      · exact le_trans (ih x hx') (le_max_right _ _)

/-- On a nonempty constant list, `npMax` returns the constant. -/
lemma npMax_const (c : ℚ) :
    ∀ (l : List ℚ), l ≠ [] → (∀ x ∈ l, x = c) → npMax l = c := by
  intro l
  induction l with
  | nil => intro h; exact absurd rfl h
  | cons a t ih =>
    intro _ h
    cases t with
    | nil => simpa [npMax] using h a (by simp)
    | cons b u =>
      have ha : a = c := h a (by simp)
      have ht : npMax (b :: u) = c :=
        ih (by simp) (fun x hx => h x (List.mem_cons_of_mem _ hx))
      show max a (npMax (b :: u)) = c
      rw [ha, ht, max_self]

/-- Clamping a second time changes nothing, provided the upper bound is
non-negative. -/
lemma clamp_clamp (b x : ℚ) (hb : 0 ≤ b) :
    max 0 (min b (max 0 (min b x))) = max 0 (min b x) := by
  have h1 : max 0 (min b x) ≤ b := max_le hb (min_le_left _ _)
  rw [min_eq_right h1, ← max_assoc, max_self]

/-- Truncating a rational in `[0, b-1]` gives an integer index in `[0, b)`. -/
lemma trunc_bounds {q b : ℚ} (h0 : 0 ≤ q) (hb : q ≤ b - 1) :
    0 ≤ trunc q ∧ (trunc q : ℚ) < b := by
  rw [trunc, if_pos h0]
  refine ⟨Int.le_floor.mpr (by exact_mod_cast h0), ?_⟩
  calc ((⌊q⌋ : ℤ) : ℚ) ≤ q := Int.floor_le q
    _ ≤ b - 1 := hb
    _ < b := by linarith

/-! ## Claims -/

/-- C3: `enforce_edges` keeps the cardinality, sets every particle's position
to `x = max(0, min(WIDTH-1, x))` and `y = max(0, min(HEIGHT-1, y))` — so
afterwards `0 ≤ x ≤ WIDTH-1` and `0 ≤ y ≤ HEIGHT-1` — and leaves both
velocity components unchanged. -/
theorem enforce_edges_spec (ps : List Particle) (i : ℕ)
    (hq : i < (enforce_edges ps).length) (hp : i < ps.length) :
    (enforce_edges ps).length = ps.length ∧
    ((enforce_edges ps).get ⟨i, hq⟩).x
        = max 0 (min (WIDTH - 1) (ps.get ⟨i, hp⟩).x) ∧
    ((enforce_edges ps).get ⟨i, hq⟩).y
        = max 0 (min (HEIGHT - 1) (ps.get ⟨i, hp⟩).y) ∧
    0 ≤ ((enforce_edges ps).get ⟨i, hq⟩).x ∧
    ((enforce_edges ps).get ⟨i, hq⟩).x ≤ WIDTH - 1 ∧
    0 ≤ ((enforce_edges ps).get ⟨i, hq⟩).y ∧
    ((enforce_edges ps).get ⟨i, hq⟩).y ≤ HEIGHT - 1 ∧
    ((enforce_edges ps).get ⟨i, hq⟩).vx = (ps.get ⟨i, hp⟩).vx ∧
    ((enforce_edges ps).get ⟨i, hq⟩).vy = (ps.get ⟨i, hp⟩).vy := by
  have hget : (enforce_edges ps).get ⟨i, hq⟩ =
      { ps.get ⟨i, hp⟩ with
        x := max 0 (min (WIDTH - 1) (ps.get ⟨i, hp⟩).x)
        y := max 0 (min (HEIGHT - 1) (ps.get ⟨i, hp⟩).y) } := by
    simp [enforce_edges, List.get_eq_getElem, List.getElem_map]
  rw [hget]
  refine ⟨by simp [enforce_edges], rfl, rfl, le_max_left _ _,
    max_le (by norm_num [WIDTH]) (min_le_left _ _), le_max_left _ _,
    max_le (by norm_num [HEIGHT]) (min_le_left _ _), rfl, rfl⟩

/-- C3 witness: the claim instantiated on the one-particle set
`[(800, -3, 2, 5)]`, whose position is out of bounds on both axes. -/
theorem enforce_edges_spec_witness :
    (enforce_edges [(⟨800, -3, 2, 5⟩ : Particle)]).length
        = [(⟨800, -3, 2, 5⟩ : Particle)].length ∧
    ((enforce_edges [(⟨800, -3, 2, 5⟩ : Particle)]).get ⟨0, by decide⟩).x
        = max 0 (min (WIDTH - 1) (([(⟨800, -3, 2, 5⟩ : Particle)]).get ⟨0, by decide⟩).x) ∧
    ((enforce_edges [(⟨800, -3, 2, 5⟩ : Particle)]).get ⟨0, by decide⟩).y
        = max 0 (min (HEIGHT - 1) (([(⟨800, -3, 2, 5⟩ : Particle)]).get ⟨0, by decide⟩).y) ∧
    0 ≤ ((enforce_edges [(⟨800, -3, 2, 5⟩ : Particle)]).get ⟨0, by decide⟩).x ∧
    ((enforce_edges [(⟨800, -3, 2, 5⟩ : Particle)]).get ⟨0, by decide⟩).x ≤ WIDTH - 1 ∧
    0 ≤ ((enforce_edges [(⟨800, -3, 2, 5⟩ : Particle)]).get ⟨0, by decide⟩).y ∧
    ((enforce_edges [(⟨800, -3, 2, 5⟩ : Particle)]).get ⟨0, by decide⟩).y ≤ HEIGHT - 1 ∧
    ((enforce_edges [(⟨800, -3, 2, 5⟩ : Particle)]).get ⟨0, by decide⟩).vx
        = (([(⟨800, -3, 2, 5⟩ : Particle)]).get ⟨0, by decide⟩).vx ∧
    ((enforce_edges [(⟨800, -3, 2, 5⟩ : Particle)]).get ⟨0, by decide⟩).vy
        = (([(⟨800, -3, 2, 5⟩ : Particle)]).get ⟨0, by decide⟩).vy :=
  enforce_edges_spec [(⟨800, -3, 2, 5⟩ : Particle)] 0 (by decide) (by decide)

/-- C6: clamping is idempotent — `enforce_edges` applied twice equals
`enforce_edges` applied once, on every particle set. -/
theorem enforce_edges_idempotent (ps : List Particle) :
    enforce_edges (enforce_edges ps) = enforce_edges ps := by
  unfold enforce_edges
  rw [List.map_map]
  refine List.map_congr_left (fun p _ => ?_)
  simp only [Function.comp_apply]
  refine Particle.ext ?_ ?_ rfl rfl
  · exact clamp_clamp _ _ (by norm_num [WIDTH])
  · exact clamp_clamp _ _ (by norm_num [HEIGHT])

/-- C4: on a particle set whose positions are clamped into
`[0,WIDTH-1] × [0,HEIGHT-1]`, the truncated pixel indices of `compute_errors`
are in bounds for the `WIDTH × HEIGHT` frame and every frame-pixel read
succeeds (the traversal returns `some`). -/
theorem compute_errors_in_bounds (ps : List Particle) (frame : ℤ → ℤ → Colour)
    (h : ∀ p ∈ ps, 0 ≤ p.x ∧ p.x ≤ WIDTH - 1 ∧ 0 ≤ p.y ∧ p.y ≤ HEIGHT - 1) :
    (∀ p ∈ ps, 0 ≤ trunc p.x ∧ (trunc p.x : ℚ) < WIDTH ∧
      0 ≤ trunc p.y ∧ (trunc p.y : ℚ) < HEIGHT) ∧
    (compute_errors ps frame).isSome := by
  constructor
  · intro p hp
    obtain ⟨hx0, hx1, hy0, hy1⟩ := h p hp
    obtain ⟨ha, hb⟩ := trunc_bounds hx0 hx1
    obtain ⟨hc, hd⟩ := trunc_bounds hy0 hy1
    exact ⟨ha, hb, hc, hd⟩
  · induction ps with
    | nil => simp [compute_errors]
    | cons p rest ih =>
      obtain ⟨hx0, hx1, hy0, hy1⟩ := h p (List.mem_cons_self p rest)
      obtain ⟨ha, hb⟩ := trunc_bounds hx0 hx1
      obtain ⟨hc, hd⟩ := trunc_bounds hy0 hy1
      have hread : readPixel frame (trunc p.y) (trunc p.x)
          = some (frame (trunc p.y) (trunc p.x)) := by
        rw [readPixel, if_pos ⟨hc, hd, ha, hb⟩]
      have hrest := ih (fun q hq => h q (List.mem_cons_of_mem _ hq))
      obtain ⟨es, hes⟩ := Option.isSome_iff_exists.mp hrest
      rw [compute_errors, hread, hes]
      rfl

/-- C4 witness: the in-bounds property at a concrete clamped one-particle set
and a constant frame. -/
theorem compute_errors_in_bounds_witness :
    (∀ p ∈ [(⟨721/2, 405/2, 1, 1⟩ : Particle)],
      0 ≤ p.x ∧ p.x ≤ WIDTH - 1 ∧ 0 ≤ p.y ∧ p.y ≤ HEIGHT - 1) ∧
    ((∀ p ∈ [(⟨721/2, 405/2, 1, 1⟩ : Particle)],
        0 ≤ trunc p.x ∧ (trunc p.x : ℚ) < WIDTH ∧
        0 ≤ trunc p.y ∧ (trunc p.y : ℚ) < HEIGHT) ∧
      (compute_errors [(⟨721/2, 405/2, 1, 1⟩ : Particle)]
        (fun _ _ => ⟨189, 105, 82⟩)).isSome) :=
  ⟨by intro p hp; rw [List.mem_singleton.mp hp]; norm_num [WIDTH, HEIGHT],
   compute_errors_in_bounds _ _
    (by intro p hp; rw [List.mem_singleton.mp hp]; norm_num [WIDTH, HEIGHT])⟩

/-- C5: every weight produced by `compute_weights` is non-negative, and the
weight of every edge-pinned particle (`x = 0`, `x = WIDTH-1`, `y = 0` or
`y = HEIGHT-1`) is exactly `0`. -/
theorem compute_weights_nonneg_edge_zero (ps : List Particle) (es : List ℚ)
    (i : ℕ) (hw : i < (compute_weights ps es).length) (hp : i < ps.length) :
    0 ≤ (compute_weights ps es).get ⟨i, hw⟩ ∧
    (pinned (ps.get ⟨i, hp⟩) → (compute_weights ps es).get ⟨i, hw⟩ = 0) := by
  have hlen : (compute_weights ps es).length = min ps.length es.length := by
    simp [compute_weights]
  have hie : i < es.length := by omega
  have hkey : (compute_weights ps es).get ⟨i, hw⟩ =
      (if pinned (ps.get ⟨i, hp⟩) then (0 : ℚ)
       else npMax es - es.get ⟨i, hie⟩) ^ 4 := by
    simp [compute_weights, List.get_eq_getElem, List.getElem_map,
      List.getElem_zip]
  rw [hkey]
  refine ⟨by positivity, fun hpin => by rw [if_pos hpin]; norm_num⟩

/-- C5 witness: the claim instantiated on a particle pinned at `x = 0`. -/
theorem compute_weights_nonneg_edge_zero_witness :
    0 < (compute_weights [(⟨0, 5, 1, 1⟩ : Particle)] [3]).length ∧
    (0 ≤ (compute_weights [(⟨0, 5, 1, 1⟩ : Particle)] [3]).get ⟨0, by decide⟩ ∧
      (pinned (([(⟨0, 5, 1, 1⟩ : Particle)]).get ⟨0, by decide⟩) →
        (compute_weights [(⟨0, 5, 1, 1⟩ : Particle)] [3]).get ⟨0, by decide⟩ = 0)) :=
  ⟨by decide, compute_weights_nonneg_edge_zero _ _ 0 (by decide) (by decide)⟩

/-- C9: a flat error distribution (all entries equal) makes `compute_weights`
return an all-zero weight vector — its sum is `0` — because inversion computes
`max(errors) - error` before sharpening. -/
theorem compute_weights_flat_sum_zero (ps : List Particle) (es : List ℚ)
    (c : ℚ) (h : ∀ e ∈ es, e = c) : (compute_weights ps es).sum = 0 := by
  apply List.sum_eq_zero
  intro w hw
  simp only [compute_weights, List.mem_map] at hw
  obtain ⟨v, hv, rfl⟩ := hw
  obtain ⟨pe, hpe, rfl⟩ := hv
  by_cases hpin : pinned pe.1
  · rw [if_pos hpin]
    norm_num
  · rw [if_neg hpin]
    have he2 : pe.2 ∈ es.map (fun e => npMax es - e) := (List.of_mem_zip hpe).2
    obtain ⟨e, he, heq⟩ := List.mem_map.mp he2
    rw [← heq, h e he, npMax_const c es (List.ne_nil_of_mem he) h, sub_self]
    norm_num

/-- C9 witness: a concrete flat error vector `[7, 7, 7]` yields weight sum `0`. -/
theorem compute_weights_flat_sum_zero_witness :
    (∀ e ∈ [(7 : ℚ), 7, 7], e = 7) ∧
    (compute_weights
      [(⟨3, 4, 0, 0⟩ : Particle), ⟨0, 9, 1, 1⟩, ⟨50, 60, 2, 2⟩]
      [(7 : ℚ), 7, 7]).sum = 0 :=
  ⟨by decide, compute_weights_flat_sum_zero _ _ 7 (by decide)⟩

/-- With `NUM_PARTICLES` non-negative weights of strictly positive sum, the
normalised vector passes `np.random.choice`'s validation. -/
lemma valid_probabilities (weights : List ℚ)
    (hw : weights.length = NUM_PARTICLES)
    (hnn : ∀ w ∈ weights, 0 ≤ w) (hpos : 0 < weights.sum) :
    (weights.map (fun w => w / weights.sum)).length = NUM_PARTICLES ∧
    (weights.map (fun w => w / weights.sum)).sum = 1 ∧
    ∀ p ∈ weights.map (fun w => w / weights.sum), 0 ≤ p := by
  refine ⟨by simpa using hw, ?_, ?_⟩
  · rw [sum_map_div, div_self (ne_of_gt hpos)]
  · intro p hp
    obtain ⟨w, hwmem, heq⟩ := List.mem_map.mp hp
    rw [← heq]
    exact div_nonneg (hnn w hwmem) (le_of_lt hpos)

/-- On a valid weight vector, `resample` returns the gathered new generation
together with the truncated coordinate means over that new generation. -/
lemma resample_eq_ok (ps : List Particle) (weights : List ℚ)
    (indices : List ℕ) (hw : weights.length = NUM_PARTICLES)
    (hnn : ∀ w ∈ weights, 0 ≤ w) (hpos : 0 < weights.sum) :
    resample ps weights indices =
      .ok (indices.map (fun i => ps.getD i dummyParticle),
           meanPoint (indices.map (fun i => ps.getD i dummyParticle))) := by
  simp only [resample]
  rw [if_pos (valid_probabilities weights hw hnn hpos)]
  rfl

/-- C1 (divergence evaluation): on an all-zero weight vector, `resample` has
no fallback path — `weights / np.sum(weights)` is computed with a zero sum
(in numpy, silently: `0.0/0.0 = NaN` under a mere `RuntimeWarning`) and the
invalid distribution is then rejected inside `np.random.choice`, crashing the
frame loop, instead of skipping resampling with a diffusion-only update or
raising an explicitly designed, reportable error. -/
theorem resample_zero_weights_divides_by_zero :
    resample (List.replicate NUM_PARTICLES dummyParticle)
        (List.replicate NUM_PARTICLES (0 : ℚ))
        (List.replicate NUM_PARTICLES 0)
      = .error "np.random.choice: invalid probability distribution" := by
  have hprob : ((List.replicate NUM_PARTICLES (0 : ℚ)).map
      (fun w => w / (List.replicate NUM_PARTICLES (0 : ℚ)).sum)).sum = (0 : ℚ) := by
    rw [List.map_replicate]
    simp
  simp only [resample]
  rw [if_neg]
  rintro ⟨-, h2, -⟩
  rw [hprob] at h2
  norm_num at h2

/-- C2: for every particle set of size `N` and every weight vector (of the
spec's WeightVector shape: `N` non-negative entries) with strictly positive
sum, `resample` succeeds and the returned generation has exactly
`N = NUM_PARTICLES` particles, however skewed the weights are. -/
theorem resample_preserves_cardinality (ps : List Particle)
    (weights : List ℚ) (indices : List ℕ)
    (_hps : ps.length = NUM_PARTICLES)
    (hw : weights.length = NUM_PARTICLES)
    (hnn : ∀ w ∈ weights, 0 ≤ w) (hpos : 0 < weights.sum)
    (hidx : indices.length = NUM_PARTICLES) :
    ∃ newPs est, resample ps weights indices = .ok (newPs, est) ∧
      newPs.length = NUM_PARTICLES := by
  refine ⟨_, _, resample_eq_ok ps weights indices hw hnn hpos, ?_⟩
  simpa using hidx

/-- C2 witness: a maximally skewed concrete case — the whole mass sits on
particle `0` (`weights = 4999 ⬝ 0 ++ [1]`) — still yields `NUM_PARTICLES`
particles. -/
theorem resample_preserves_cardinality_witness :
    (List.replicate NUM_PARTICLES dummyParticle).length = NUM_PARTICLES ∧
    0 < (List.replicate (NUM_PARTICLES - 1) (0 : ℚ) ++ [1]).sum ∧
    ∃ newPs est,
      resample (List.replicate NUM_PARTICLES dummyParticle)
          (List.replicate (NUM_PARTICLES - 1) (0 : ℚ) ++ [1])
          (List.replicate NUM_PARTICLES 0)
        = .ok (newPs, est) ∧ newPs.length = NUM_PARTICLES :=
  ⟨by simp, by simp,
   resample_preserves_cardinality _ _ _ (by simp)
     (by
       simp only [List.length_append, List.length_replicate,
         List.length_singleton]
       unfold NUM_PARTICLES
       norm_num)
     (by
       intro w hw
       rcases List.mem_append.mp hw with h | h
       · rw [List.eq_of_mem_replicate h]
       · rw [List.mem_singleton.mp h]; norm_num)
     (by simp) (by simp)⟩

/-- C8: the estimate returned by `resample` is the truncated arithmetic mean
of `x` and of `y` over the new, post-resample generation (the gathered
`particles[indices, :]`), not over the pre-resample input generation. -/
theorem resample_estimate_is_mean_of_new_generation (ps : List Particle)
    (weights : List ℚ) (indices : List ℕ)
    (hw : weights.length = NUM_PARTICLES)
    (hnn : ∀ w ∈ weights, 0 ≤ w) (hpos : 0 < weights.sum) :
    ∃ newPs, newPs = indices.map (fun i => ps.getD i dummyParticle) ∧
      resample ps weights indices = .ok (newPs, meanPoint newPs) :=
  ⟨_, rfl, resample_eq_ok ps weights indices hw hnn hpos⟩

/-- C8 witness: with particles `(10,20)` and `(30,40)` and all indices drawing
particle `1`, the estimate is `(30, 40)` — the mean of the new generation —
and not `(20, 30)`, the mean of the old one. -/
theorem resample_estimate_is_mean_of_new_generation_witness :
    0 < (List.replicate NUM_PARTICLES (1 : ℚ)).sum ∧
    (∃ newPs, newPs = (List.replicate NUM_PARTICLES 1).map
        (fun i => ([(⟨10, 20, 0, 0⟩ : Particle), ⟨30, 40, 0, 0⟩]).getD i dummyParticle) ∧
      resample [(⟨10, 20, 0, 0⟩ : Particle), ⟨30, 40, 0, 0⟩]
          (List.replicate NUM_PARTICLES (1 : ℚ))
          (List.replicate NUM_PARTICLES 1)
        = .ok (newPs, meanPoint newPs)) ∧
    meanPoint (List.replicate NUM_PARTICLES (⟨30, 40, 0, 0⟩ : Particle)) = (30, 40) ∧
    meanPoint [(⟨10, 20, 0, 0⟩ : Particle), ⟨30, 40, 0, 0⟩] = (20, 30) :=
  ⟨by rw [List.sum_replicate, nsmul_eq_mul]; unfold NUM_PARTICLES; norm_num,
   resample_estimate_is_mean_of_new_generation _ _ _ (by simp)
     (by intro w hw; rw [List.eq_of_mem_replicate hw]; norm_num)
     (by rw [List.sum_replicate, nsmul_eq_mul]; unfold NUM_PARTICLES; norm_num),
   by
     have hN : ((NUM_PARTICLES : ℕ) : ℚ) ≠ 0 := by unfold NUM_PARTICLES; norm_num
     rw [meanPoint, List.map_replicate, List.map_replicate, List.sum_replicate,
       List.sum_replicate, List.length_replicate, nsmul_eq_mul, nsmul_eq_mul,
       mul_div_cancel_left₀ _ hN, mul_div_cancel_left₀ _ hN]
     norm_num [trunc],
   by norm_num [meanPoint, trunc]⟩

/-- C10: with a valid weight vector and in-range drawn indices, every particle
of the generation returned by `resample` is a particle of the input
generation — resampling replicates and drops, it never fabricates. -/
theorem resample_no_fabrication (ps : List Particle) (weights : List ℚ)
    (indices : List ℕ)
    (hps : ps.length = NUM_PARTICLES)
    (hw : weights.length = NUM_PARTICLES)
    (hnn : ∀ w ∈ weights, 0 ≤ w) (hpos : 0 < weights.sum)
    (hrange : ∀ i ∈ indices, i < NUM_PARTICLES) :
    ∃ newPs est, resample ps weights indices = .ok (newPs, est) ∧
      ∀ q ∈ newPs, q ∈ ps := by
  refine ⟨_, _, resample_eq_ok ps weights indices hw hnn hpos, ?_⟩
  intro q hq
  obtain ⟨i, hi, heq⟩ := List.mem_map.mp hq
  have hilt : i < ps.length := hps ▸ hrange i hi
  rw [← heq, List.getD_eq_getElem ps dummyParticle hilt]
  exact List.getElem_mem hilt

/-- C10 witness: the claim instantiated on two distinct particles with uniform
weights and all draws picking index `0`. -/
theorem resample_no_fabrication_witness :
    (List.replicate (NUM_PARTICLES - 1) (⟨10, 20, 0, 0⟩ : Particle) ++
        [(⟨30, 40, 0, 0⟩ : Particle)]).length = NUM_PARTICLES ∧
    (∀ i ∈ List.replicate NUM_PARTICLES 0, i < NUM_PARTICLES) ∧
    ∃ newPs est,
      resample (List.replicate (NUM_PARTICLES - 1) (⟨10, 20, 0, 0⟩ : Particle) ++
          [(⟨30, 40, 0, 0⟩ : Particle)])
          (List.replicate NUM_PARTICLES (1 : ℚ))
          (List.replicate NUM_PARTICLES 0)
        = .ok (newPs, est) ∧
      ∀ q ∈ newPs,
        q ∈ List.replicate (NUM_PARTICLES - 1) (⟨10, 20, 0, 0⟩ : Particle) ++
          [(⟨30, 40, 0, 0⟩ : Particle)] :=
  ⟨by
     simp only [List.length_append, List.length_replicate, List.length_singleton]
     unfold NUM_PARTICLES
     norm_num,
   by intro i hi; rw [List.eq_of_mem_replicate hi]; norm_num [NUM_PARTICLES],
   resample_no_fabrication _ _ _
     (by
       simp only [List.length_append, List.length_replicate,
         List.length_singleton]
       unfold NUM_PARTICLES
       norm_num)
     (by simp)
     (by intro w hw; rw [List.eq_of_mem_replicate hw]; norm_num)
     (by rw [List.sum_replicate, nsmul_eq_mul]; unfold NUM_PARTICLES; norm_num)
     (by intro i hi; rw [List.eq_of_mem_replicate hi]; norm_num [NUM_PARTICLES])⟩

/-- C7: `initialize_particles` on the `NUM_PARTICLES` rows of
`np.random.rand` (each component in `[0,1)`) produces exactly `NUM_PARTICLES`
particles with `0 ≤ x < WIDTH`, `0 ≤ y < HEIGHT`, `|vx| ≤ VEL_RANGE/2` and
`|vy| ≤ VEL_RANGE/2`. -/
theorem initialize_particles_spec (rand : List (ℚ × ℚ × ℚ × ℚ))
    (hlen : rand.length = NUM_PARTICLES)
    (h : ∀ r ∈ rand, (0 ≤ r.1 ∧ r.1 < 1) ∧ (0 ≤ r.2.1 ∧ r.2.1 < 1) ∧
        (0 ≤ r.2.2.1 ∧ r.2.2.1 < 1) ∧ (0 ≤ r.2.2.2 ∧ r.2.2.2 < 1)) :
    (initialize_particles rand).length = NUM_PARTICLES ∧
    ∀ p ∈ initialize_particles rand,
      0 ≤ p.x ∧ p.x < WIDTH ∧ 0 ≤ p.y ∧ p.y < HEIGHT ∧
      |p.vx| ≤ VEL_RANGE / 2 ∧ |p.vy| ≤ VEL_RANGE / 2 := by
  constructor
  · simpa [initialize_particles] using hlen
  · intro p hp
    simp only [initialize_particles, List.mem_map] at hp
    obtain ⟨r, hr, heq⟩ := hp
    obtain ⟨⟨h10, h11⟩, ⟨h20, h21⟩, ⟨h30, h31⟩, ⟨h40, h41⟩⟩ := h r hr
    rw [← heq]
    refine ⟨?_, ?_, ?_, ?_, ?_, ?_⟩
    · exact mul_nonneg h10 (by norm_num [WIDTH])
    · show r.1 * WIDTH < WIDTH
      norm_num [WIDTH]
      linarith
    · exact mul_nonneg h20 (by norm_num [HEIGHT])
    · show r.2.1 * HEIGHT < HEIGHT
      norm_num [HEIGHT]
      linarith
    · show |r.2.2.1 * VEL_RANGE - VEL_RANGE / 2| ≤ VEL_RANGE / 2
      rw [abs_le]
      norm_num [VEL_RANGE]
      constructor <;> linarith
    · show |r.2.2.2 * VEL_RANGE - VEL_RANGE / 2| ≤ VEL_RANGE / 2
      rw [abs_le]
      norm_num [VEL_RANGE]
      constructor <;> linarith

/-- C7 witness: the claim instantiated on the constant oracle whose
`NUM_PARTICLES` rows are all `(1/2, 1/2, 1/2, 1/2)`. -/
theorem initialize_particles_spec_witness :
    (List.replicate NUM_PARTICLES ((1 : ℚ)/2, (1 : ℚ)/2, (1 : ℚ)/2, (1 : ℚ)/2)).length
        = NUM_PARTICLES ∧
    ((initialize_particles
        (List.replicate NUM_PARTICLES ((1 : ℚ)/2, (1 : ℚ)/2, (1 : ℚ)/2, (1 : ℚ)/2))).length
        = NUM_PARTICLES ∧
      ∀ p ∈ initialize_particles
          (List.replicate NUM_PARTICLES ((1 : ℚ)/2, (1 : ℚ)/2, (1 : ℚ)/2, (1 : ℚ)/2)),
        0 ≤ p.x ∧ p.x < WIDTH ∧ 0 ≤ p.y ∧ p.y < HEIGHT ∧
        |p.vx| ≤ VEL_RANGE / 2 ∧ |p.vy| ≤ VEL_RANGE / 2) :=
  ⟨by simp,
   initialize_particles_spec _ (by simp)
     (by intro r hr; rw [List.eq_of_mem_replicate hr]; norm_num)⟩

end Tracking
